import Mathlib

/-!
# Verification of the L3 coordinate-ascent QP solver (`src/src/l3solver.cpp`)

The C++ code solves `min 0.5*||beta||^2` subject to three families of linear
constraints by block coordinate updates on the dual variables
`xi / Lambda / Gamma / Omega`, maintaining the primal vector `beta`
incrementally.

Embedding conventions:
* machine `double` arithmetic is embedded as exact rationals `ℚ`
  (the claims under study are stated for exact real arithmetic);
* entries of `Tau` may be `+infinity` in the C++ code, so they are embedded
  as `Option ℚ`, `none` standing for `+infinity`; each arithmetic operation
  the code performs on a `Tau` entry is translated branch by branch with its
  IEEE value at `+infinity` (e.g. `min(0.5 * inf, 1.0) = 1.0`,
  `max(0.0, finite - inf) = 0.0`);
* Eigen's `v.norm() < tol` test is embedded as
  `0 ≤ tol ∧ v.squaredNorm < tol ^ 2`, which is equivalent over the reals
  and avoids square roots;
* matrices are total functions out of `Fin`, so the dimension bookkeeping of
  the C++ interface is carried by the types.
-/

namespace L3

/-- Dot product of two length-`m` vectors, `Eigen`'s `x.dot(y)`. -/
def dot {m : ℕ} (x y : Fin m → ℚ) : ℚ := ∑ j, x j * y j

/-- The immutable inputs of one solver call (`l3solver_internal` arguments).
`X : n×d`, `A : K×d`, `b : K`, `U V : L×n`, `S T Tau : H×n`;
a `Tau` entry `none` is `+infinity`. -/
structure Inputs (n d L H K : ℕ) where
  X : Fin n → Fin d → ℚ
  A : Fin K → Fin d → ℚ
  b : Fin K → ℚ
  U : Fin L → Fin n → ℚ
  V : Fin L → Fin n → ℚ
  S : Fin H → Fin n → ℚ
  T : Fin H → Fin n → ℚ
  Tau : Fin H → Fin n → Option ℚ

/-- The mutable primal/dual state of the solver
(`beta`, `xi`, `Lambda`, `Gamma`, `Omega` in `l3solver_internal`). -/
structure St (n d L H K : ℕ) where
  xi : Fin K → ℚ
  Lambda : Fin L → Fin n → ℚ
  Gamma : Fin H → Fin n → ℚ
  Omega : Fin H → Fin n → ℚ
  beta : Fin d → ℚ

instance {n d L H K : ℕ} : DecidableEq (St n d L H K) := fun a b =>
  decidable_of_iff
    (a.xi = b.xi ∧ a.Lambda = b.Lambda ∧ a.Gamma = b.Gamma ∧
      a.Omega = b.Omega ∧ a.beta = b.beta)
    (by cases a; cases b; simp [St.mk.injEq])

variable {n d L H K : ℕ}

/-- `precompute_r`: squared norms of the rows of `X`. -/
def precompute_r (P : Inputs n d L H K) : Fin n → ℚ := fun i => ∑ j, P.X i j ^ 2

/-- `precompute_p`: squared norms of the rows of `A`
(the `K = 0` branch of the C++ code returns the empty vector, which is the
unique function out of `Fin 0`). -/
def precompute_p (P : Inputs n d L H K) : Fin K → ℚ := fun k => ∑ j, P.A k j ^ 2

/-- `get_primal`: closed-form reconstruction of `beta` from the dual state,
`beta = A^T*xi - X^T*(colSums(U.*Lambda) + colSums(S.*Gamma))`.
The `K > 0` / `L > 0` / `H > 0` branches of the C++ code skip terms that are
sums over an empty index range, hence identically zero here. -/
def get_primal (P : Inputs n d L H K) (xi : Fin K → ℚ)
    (Lambda : Fin L → Fin n → ℚ) (Gamma : Fin H → Fin n → ℚ) : Fin d → ℚ :=
  fun j => (∑ k, P.A k j * xi k)
    - ∑ i, P.X i j * ((∑ l, P.U l i * Lambda l i) + (∑ h, P.S h i * Gamma h i))

/-- `init_params`: `xi = 1`, `Lambda = 0.5`, `Gamma = min(0.5*Tau, 1)`
(IEEE: `min(0.5*inf, 1) = 1`), `Omega = 0`, and `beta = get_primal(...)`. -/
def init_params (P : Inputs n d L H K) : St n d L H K :=
  let xi : Fin K → ℚ := fun _ => 1
  let Lambda : Fin L → Fin n → ℚ := fun _ _ => 0.5
  let Gamma : Fin H → Fin n → ℚ := fun h i =>
    match P.Tau h i with
    | none => 1
    | some t => min (0.5 * t) 1
  let Omega : Fin H → Fin n → ℚ := fun _ _ => 0
  ⟨xi, Lambda, Gamma, Omega, get_primal P xi Lambda Gamma⟩

/-- Point update of a matrix entry (assignment `M(x, y) = v`). -/
def upd2 {a c : ℕ} (M : Fin a → Fin c → ℚ) (x : Fin a) (y : Fin c) (v : ℚ) :
    Fin a → Fin c → ℚ :=
  fun p q => if p = x ∧ q = y then v else M p q

/-- The clipped step `eps` of one `xi` coordinate update:
`eps = max(-(A.row(k).dot(beta) + b[k]) / p[k], -xi[k])`. -/
def xi_eps (P : Inputs n d L H K) (st : St n d L H K) (k : Fin K) : ℚ :=
  max (-(dot (P.A k) st.beta + P.b k) / precompute_p P k) (-(st.xi k))

/-- One iteration of the loop body of `update_xi_beta`:
`xi[k] += eps; beta += eps * A.row(k)`. -/
def xi_step (P : Inputs n d L H K) (st : St n d L H K) (k : Fin K) :
    St n d L H K :=
  let eps := xi_eps P st k
  { st with
    xi := Function.update st.xi k (st.xi k + eps)
    beta := fun j => st.beta j + eps * P.A k j }

/-- The clipped step `eps` of one `Lambda` coordinate update:
`eps = (V(l,i) + u*X.row(i).dot(beta)) / r[i] / u / u`, then clipped into
`[-Lambda(l,i), 1 - Lambda(l,i)]` (min with the upper end first). -/
def lambda_eps (P : Inputs n d L H K) (st : St n d L H K)
    (l : Fin L) (i : Fin n) : ℚ :=
  let u := P.U l i
  let eps0 := (P.V l i + u * dot (P.X i) st.beta) / precompute_r P i / u / u
  max (min eps0 (1 - st.Lambda l i)) (-(st.Lambda l i))

/-- One iteration of the loop body of `update_Lambda_beta`:
`Lambda(l,i) += eps; beta -= eps * u * X.row(i)`. -/
def lambda_step (P : Inputs n d L H K) (st : St n d L H K)
    (l : Fin L) (i : Fin n) : St n d L H K :=
  let eps := lambda_eps P st l i
  { st with
    Lambda := upd2 st.Lambda l i (st.Lambda l i + eps)
    beta := fun j => st.beta j - eps * P.U l i * P.X i j }

/-- The clipped step `eps` of one `Gamma` coordinate update:
`eps = (T(h,i) + Omega(h,i) + s*X.row(i).dot(beta) - gamma) / (s*s*r[i] + 1)`,
then `eps = min(eps, tau - gamma)` (a no-op when `tau = +infinity`) and
`eps = max(eps, -gamma)`. -/
def gamma_eps (P : Inputs n d L H K) (st : St n d L H K)
    (h : Fin H) (i : Fin n) : ℚ :=
  let s := P.S h i
  let g := st.Gamma h i
  let eps0 := (P.T h i + st.Omega h i + s * dot (P.X i) st.beta - g)
    / (s * s * precompute_r P i + 1)
  let eps1 := match P.Tau h i with
    | none => eps0
    | some t => min eps0 (t - g)
  max eps1 (-g)

/-- One iteration of the loop body of `update_Gamma_Omega_beta`:
`Gamma(h,i) += eps; beta -= eps * s * X.row(i);
Omega(h,i) = max(0, gamma_hi + eps - tau_hi)` where `gamma_hi` is the value
of `Gamma(h,i)` read at the start of the step; with `tau_hi = +infinity` the
IEEE value of `max(0.0, finite - inf)` is `0`. -/
def gamma_step (P : Inputs n d L H K) (st : St n d L H K)
    (h : Fin H) (i : Fin n) : St n d L H K :=
  let s := P.S h i
  let g := st.Gamma h i
  let eps := gamma_eps P st h i
  { st with
    Gamma := upd2 st.Gamma h i (g + eps)
    beta := fun j => st.beta j - eps * s * P.X i j
    Omega := upd2 st.Omega h i (match P.Tau h i with
      | none => 0
      | some t => max 0 (g + eps - t)) }

/-- `update_xi_beta`: one sweep over `k = 0, ..., K-1` in order. -/
def update_xi_beta (P : Inputs n d L H K) (st : St n d L H K) : St n d L H K :=
  (List.finRange K).foldl (fun s k => xi_step P s k) st

/-- `update_Lambda_beta`: one sweep over `l = 0, ..., L-1` (outer) and
`i = 0, ..., n-1` (inner), in order. -/
def update_Lambda_beta (P : Inputs n d L H K) (st : St n d L H K) :
    St n d L H K :=
  (List.finRange L).foldl
    (fun s l => (List.finRange n).foldl (fun s2 i => lambda_step P s2 l i) s) st

/-- `update_Gamma_Omega_beta`: one sweep over `h = 0, ..., H-1` (outer) and
`i = 0, ..., n-1` (inner), in order. -/
def update_Gamma_Omega_beta (P : Inputs n d L H K) (st : St n d L H K) :
    St n d L H K :=
  (List.finRange H).foldl
    (fun s h => (List.finRange n).foldl (fun s2 i => gamma_step P s2 h i) s) st

/-- One full iteration of the main loop: `update_xi_beta`, then
`update_Lambda_beta`, then `update_Gamma_Omega_beta`, in that order. -/
def sweep (P : Inputs n d L H K) (st : St n d L H K) : St n d L H K :=
  update_Gamma_Omega_beta P (update_Lambda_beta P (update_xi_beta P st))

/-- `std::numeric_limits<double>::max()`, the clipping constant used by
`dual_objfn` on the entries of `Tau`. -/
def max_finite : ℚ := 2 ^ 1024 - 2 ^ 971

/-- The value of `std::min(tau_hi, max_finite)` (IEEE: `min(inf, M) = M`). -/
def tau_clip (t : Option ℚ) : ℚ :=
  match t with
  | none => max_finite
  | some t0 => min t0 max_finite

/-- `dual_objfn`: the diagnostic dual objective value.  The `K > 0` /
`L > 0` / `H > 0` branches of the C++ code skip groups of terms each of
which is a sum over an empty index range, hence identically zero here. -/
def dual_objfn (P : Inputs n d L H K) (st : St n d L H K) : ℚ :=
  let Atxi : Fin d → ℚ := fun j => ∑ k, P.A k j * st.xi k
  let UL : Fin n → ℚ := fun i => ∑ l, P.U l i * st.Lambda l i
  let U3L : Fin d → ℚ := fun j => ∑ i, P.X i j * UL i
  let SG : Fin n → ℚ := fun i => ∑ h, P.S h i * st.Gamma h i
  let S3G : Fin d → ℚ := fun j => ∑ i, P.X i j * SG i
  (0.5 * dot Atxi Atxi - dot Atxi U3L - dot Atxi S3G + dot st.xi P.b)
    + (0.5 * dot U3L U3L + dot U3L S3G - ∑ l, ∑ i, st.Lambda l i * P.V l i)
    + (0.5 * (∑ h, ∑ i, st.Omega h i ^ 2) + 0.5 * dot S3G S3G
        + 0.5 * (∑ h, ∑ i, st.Gamma h i ^ 2)
        - ∑ h, ∑ i, st.Gamma h i * (st.Omega h i + P.T h i)
        + ∑ h, ∑ i, st.Omega h i * tau_clip (P.Tau h i))

/-- The embedding of Eigen's `v.norm() < tol`, carried out on the squared
norm: over the reals `sqrt sq < tol ↔ 0 ≤ tol ∧ sq < tol ^ 2`
(for `sq ≥ 0`). -/
def normSqLt (sq tol : ℚ) : Bool := decide (0 ≤ tol ∧ sq < tol ^ 2)

/-- The `L3Result` struct returned by `l3solver_internal`. -/
structure L3Result (n d L H K : ℕ) where
  beta : Fin d → ℚ
  xi : Fin K → ℚ
  Lambda : Fin L → Fin n → ℚ
  Gamma : Fin H → Fin n → ℚ
  Omega : Fin H → Fin n → ℚ
  niter : ℕ
  dual_objfns : List ℚ

/-- The main loop of `l3solver_internal`, recursing on the remaining fuel
`max_iter - i`.  Each pass: snapshot `xi` and `beta`, run the three sweeps,
compute the squared diffs, push the dual objective when
`verbose && i % 10 == 0`, then test convergence and either break (returning
the loop counter `i`) or continue with `i + 1`. -/
def l3iterate (P : Inputs n d L H K) (tol : ℚ) (verbose : Bool) :
    ℕ → ℕ → St n d L H K → List ℚ → St n d L H K × ℕ × List ℚ
  | 0, i, st, objs => (st, i, objs)
  | fuel + 1, i, st, objs =>
    let st2 := sweep P st
    let xi_diff_sq : ℚ := if 0 < K then ∑ k, (st2.xi k - st.xi k) ^ 2 else 0
    let beta_diff_sq : ℚ := ∑ j, (st2.beta j - st.beta j) ^ 2
    let objs2 := if verbose && (i % 10 == 0)
      then objs ++ [dual_objfn P st2] else objs
    if normSqLt xi_diff_sq tol && normSqLt beta_diff_sq tol
    then (st2, i, objs2)
    else l3iterate P tol verbose fuel (i + 1) st2 objs2

/-- `l3solver_internal`: precompute, initialize, run at most `max_iter`
iterations of the main loop, and package the final state, the loop counter
and the sampled dual objective values into an `L3Result`.  It is a total
function: iteration exhaustion is reported through `niter`, never as an
error. -/
def l3solver_internal (P : Inputs n d L H K) (max_iter : ℕ) (tol : ℚ)
    (verbose : Bool) : L3Result n d L H K :=
  let z := l3iterate P tol verbose max_iter 0 (init_params P) []
  ⟨z.1.beta, z.1.xi, z.1.Lambda, z.1.Gamma, z.1.Omega, z.2.1, z.2.2⟩

/-! ## Specification predicates -/

/-- Primal consistency: the incrementally maintained `beta` equals the
closed-form reconstruction `get_primal` of the current dual state. -/
def Consistent (P : Inputs n d L H K) (st : St n d L H K) : Prop :=
  st.beta = get_primal P st.xi st.Lambda st.Gamma

/-- `0 ≤ tau` for a possibly-infinite `Tau` entry (`+infinity` qualifies). -/
def tau_nn (t : Option ℚ) : Prop :=
  match t with
  | none => True
  | some t0 => 0 ≤ t0

/-- `g ≤ tau` for a possibly-infinite `Tau` entry. -/
def le_tau (g : ℚ) (t : Option ℚ) : Prop :=
  match t with
  | none => True
  | some t0 => g ≤ t0

/-- Box feasibility of the dual state: `xi ≥ 0`, `Lambda ∈ [0,1]`,
`Gamma ∈ [0, Tau]`, `Omega ≥ 0`. -/
def Feas (P : Inputs n d L H K) (st : St n d L H K) : Prop :=
  (∀ k, 0 ≤ st.xi k) ∧
  (∀ l i, 0 ≤ st.Lambda l i ∧ st.Lambda l i ≤ 1) ∧
  (∀ h i, 0 ≤ st.Gamma h i ∧ le_tau (st.Gamma h i) (P.Tau h i)) ∧
  (∀ h i, 0 ≤ st.Omega h i)

/-- The complementary slack matrix is identically zero. -/
def OmegaZero (st : St n d L H K) : Prop := ∀ h i, st.Omega h i = 0

/-! ## Sum-manipulation helper lemmas -/

lemma sum_mul_update {m : ℕ} (g f : Fin m → ℚ) (k : Fin m) (v : ℚ) :
    ∑ x, g x * Function.update f k v x = (∑ x, g x * f x) + g k * (v - f k) := by
  have hpt : ∀ x, Function.update f k v x = f x + (if x = k then v - f k else 0) := by
    intro x
    by_cases hx : x = k
    · subst hx; simp
    · simp [Function.update_noteq hx, hx]
  calc ∑ x, g x * Function.update f k v x
      = ∑ x, (g x * f x + g x * (if x = k then v - f k else 0)) :=
        Finset.sum_congr rfl fun x _ => by rw [hpt x]; ring
    _ = (∑ x, g x * f x) + ∑ x, g x * (if x = k then v - f k else 0) :=
        Finset.sum_add_distrib
    _ = (∑ x, g x * f x) + g k * (v - f k) := by
        simp [mul_ite, Finset.sum_ite_eq']

lemma sum_update_mul {m : ℕ} (f : Fin m → ℚ) (k : Fin m) (v : ℚ) (g : Fin m → ℚ) :
    ∑ x, Function.update f k v x * g x = (∑ x, f x * g x) + (v - f k) * g k := by
  calc ∑ x, Function.update f k v x * g x
      = ∑ x, g x * Function.update f k v x :=
        Finset.sum_congr rfl fun x _ => mul_comm _ _
    _ = (∑ x, g x * f x) + g k * (v - f k) := sum_mul_update g f k v
    _ = (∑ x, f x * g x) + (v - f k) * g k := by
        rw [Finset.sum_congr rfl fun x _ => mul_comm (g x) (f x)]; ring

lemma upd2_eq_add {a c : ℕ} (M : Fin a → Fin c → ℚ) (x : Fin a) (y : Fin c)
    (v : ℚ) (p : Fin a) (q : Fin c) :
    upd2 M x y v p q = M p q + (if p = x ∧ q = y then v - M x y else 0) := by
  unfold upd2
  by_cases hpq : p = x ∧ q = y
  · obtain ⟨rfl, rfl⟩ := hpq; simp
  · simp [hpq]

lemma sum_mul_ite_pair {a c : ℕ} (g : Fin a → ℚ) (x : Fin a) (q y : Fin c)
    (w : ℚ) :
    (∑ p, g p * if p = x ∧ q = y then w else 0) =
      if q = y then g x * w else 0 := by
  by_cases hq : q = y
  · simp [hq, mul_ite, Finset.sum_ite_eq']
  · simp [hq]

/-- Effect of a single entry update on the inner weighted column sums of
`get_primal`. -/
lemma sum_mul_upd2 {a c : ℕ} (W M : Fin a → Fin c → ℚ) (x : Fin a) (y : Fin c)
    (v : ℚ) (q : Fin c) :
    ∑ p, W p q * upd2 M x y v p q =
      (∑ p, W p q * M p q) + (if q = y then W x q * (v - M x y) else 0) := by
  calc ∑ p, W p q * upd2 M x y v p q
      = ∑ p, (W p q * M p q + W p q * (if p = x ∧ q = y then v - M x y else 0)) :=
        Finset.sum_congr rfl fun p _ => by rw [upd2_eq_add]; ring
    _ = (∑ p, W p q * M p q) +
          ∑ p, W p q * (if p = x ∧ q = y then v - M x y else 0) :=
        Finset.sum_add_distrib
    _ = _ := by rw [sum_mul_ite_pair]

/-! ## Effect of one coordinate update on the closed-form primal -/

lemma get_primal_update_xi (P : Inputs n d L H K) (xi : Fin K → ℚ)
    (Lambda : Fin L → Fin n → ℚ) (Gamma : Fin H → Fin n → ℚ)
    (k : Fin K) (v : ℚ) :
    get_primal P (Function.update xi k v) Lambda Gamma =
      fun j => get_primal P xi Lambda Gamma j + (v - xi k) * P.A k j := by
  funext j
  simp only [get_primal]
  rw [sum_mul_update (fun x => P.A x j) xi k v]
  ring

lemma get_primal_upd2_Lambda (P : Inputs n d L H K) (xi : Fin K → ℚ)
    (Lambda : Fin L → Fin n → ℚ) (Gamma : Fin H → Fin n → ℚ)
    (l : Fin L) (i : Fin n) (v : ℚ) :
    get_primal P xi (upd2 Lambda l i v) Gamma =
      fun j => get_primal P xi Lambda Gamma j -
        (v - Lambda l i) * P.U l i * P.X i j := by
  funext j
  simp only [get_primal]
  have hmain :
      ∑ i2, P.X i2 j * ((∑ l2, P.U l2 i2 * upd2 Lambda l i v l2 i2) +
        ∑ h, P.S h i2 * Gamma h i2) =
      (∑ i2, P.X i2 j * ((∑ l2, P.U l2 i2 * Lambda l2 i2) +
          ∑ h, P.S h i2 * Gamma h i2)) +
        P.X i j * (P.U l i * (v - Lambda l i)) := by
    have hpt : ∀ i2, P.X i2 j * ((∑ l2, P.U l2 i2 * upd2 Lambda l i v l2 i2) +
        ∑ h, P.S h i2 * Gamma h i2) =
        P.X i2 j * ((∑ l2, P.U l2 i2 * Lambda l2 i2) +
          ∑ h, P.S h i2 * Gamma h i2) +
        (if i2 = i then P.X i2 j * (P.U l i2 * (v - Lambda l i)) else 0) := by
      intro i2
      rw [sum_mul_upd2 (fun p q => P.U p q) Lambda l i v i2]
      by_cases hi2 : i2 = i
      · subst hi2; simp only [if_true]; ring
      · simp only [hi2, if_false]; ring
    calc ∑ i2, P.X i2 j * ((∑ l2, P.U l2 i2 * upd2 Lambda l i v l2 i2) +
          ∑ h, P.S h i2 * Gamma h i2)
        = ∑ i2, (P.X i2 j * ((∑ l2, P.U l2 i2 * Lambda l2 i2) +
            ∑ h, P.S h i2 * Gamma h i2) +
          (if i2 = i then P.X i2 j * (P.U l i2 * (v - Lambda l i)) else 0)) :=
          Finset.sum_congr rfl fun i2 _ => hpt i2
      _ = (∑ i2, P.X i2 j * ((∑ l2, P.U l2 i2 * Lambda l2 i2) +
            ∑ h, P.S h i2 * Gamma h i2)) +
          ∑ i2, (if i2 = i then P.X i2 j * (P.U l i2 * (v - Lambda l i)) else 0) :=
          Finset.sum_add_distrib
      _ = _ := by
          rw [Finset.sum_ite_eq' Finset.univ i
            (fun i2 => P.X i2 j * (P.U l i2 * (v - Lambda l i)))]
          simp
  rw [hmain]
  ring

lemma get_primal_upd2_Gamma (P : Inputs n d L H K) (xi : Fin K → ℚ)
    (Lambda : Fin L → Fin n → ℚ) (Gamma : Fin H → Fin n → ℚ)
    (h : Fin H) (i : Fin n) (v : ℚ) :
    get_primal P xi Lambda (upd2 Gamma h i v) =
      fun j => get_primal P xi Lambda Gamma j -
        (v - Gamma h i) * P.S h i * P.X i j := by
  funext j
  simp only [get_primal]
  have hmain :
      ∑ i2, P.X i2 j * ((∑ l, P.U l i2 * Lambda l i2) +
        ∑ h2, P.S h2 i2 * upd2 Gamma h i v h2 i2) =
      (∑ i2, P.X i2 j * ((∑ l, P.U l i2 * Lambda l i2) +
          ∑ h2, P.S h2 i2 * Gamma h2 i2)) +
        P.X i j * (P.S h i * (v - Gamma h i)) := by
    have hpt : ∀ i2, P.X i2 j * ((∑ l, P.U l i2 * Lambda l i2) +
        ∑ h2, P.S h2 i2 * upd2 Gamma h i v h2 i2) =
        P.X i2 j * ((∑ l, P.U l i2 * Lambda l i2) +
          ∑ h2, P.S h2 i2 * Gamma h2 i2) +
        (if i2 = i then P.X i2 j * (P.S h i2 * (v - Gamma h i)) else 0) := by
      intro i2
      rw [sum_mul_upd2 (fun p q => P.S p q) Gamma h i v i2]
      by_cases hi2 : i2 = i
      · subst hi2; simp only [if_true]; ring
      · simp only [hi2, if_false]; ring
    calc ∑ i2, P.X i2 j * ((∑ l, P.U l i2 * Lambda l i2) +
          ∑ h2, P.S h2 i2 * upd2 Gamma h i v h2 i2)
        = ∑ i2, (P.X i2 j * ((∑ l, P.U l i2 * Lambda l i2) +
            ∑ h2, P.S h2 i2 * Gamma h2 i2) +
          (if i2 = i then P.X i2 j * (P.S h i2 * (v - Gamma h i)) else 0)) :=
          Finset.sum_congr rfl fun i2 _ => hpt i2
      _ = (∑ i2, P.X i2 j * ((∑ l, P.U l i2 * Lambda l i2) +
            ∑ h2, P.S h2 i2 * Gamma h2 i2)) +
          ∑ i2, (if i2 = i then P.X i2 j * (P.S h i2 * (v - Gamma h i)) else 0) :=
          Finset.sum_add_distrib
      _ = _ := by
          rw [Finset.sum_ite_eq' Finset.univ i
            (fun i2 => P.X i2 j * (P.S h i2 * (v - Gamma h i)))]
          simp
  rw [hmain]
  ring

/-! ## Primal consistency is preserved by every single coordinate update -/

lemma consistent_init (P : Inputs n d L H K) : Consistent P (init_params P) := rfl

lemma consistent_xi_step (P : Inputs n d L H K) (st : St n d L H K) (k : Fin K)
    (hC : Consistent P st) : Consistent P (xi_step P st k) := by
  unfold Consistent at hC ⊢
  simp only [xi_step]
  rw [get_primal_update_xi]
  funext j
  rw [hC]
  ring

lemma consistent_lambda_step (P : Inputs n d L H K) (st : St n d L H K)
    (l : Fin L) (i : Fin n) (hC : Consistent P st) :
    Consistent P (lambda_step P st l i) := by
  unfold Consistent at hC ⊢
  simp only [lambda_step]
  rw [get_primal_upd2_Lambda]
  funext j
  rw [hC]
  ring

lemma consistent_gamma_step (P : Inputs n d L H K) (st : St n d L H K)
    (h : Fin H) (i : Fin n) (hC : Consistent P st) :
    Consistent P (gamma_step P st h i) := by
  unfold Consistent at hC ⊢
  simp only [gamma_step]
  rw [get_primal_upd2_Gamma]
  funext j
  rw [hC]
  ring

/-! ## Box feasibility -/

lemma feas_init (P : Inputs n d L H K) (hTau : ∀ h i, tau_nn (P.Tau h i)) :
    Feas P (init_params P) := by
  refine ⟨fun k => ?_, fun l i => ?_, fun h i => ?_, fun h i => ?_⟩
  · show (0 : ℚ) ≤ 1; norm_num
  · show (0 : ℚ) ≤ 0.5 ∧ (0.5 : ℚ) ≤ 1
    norm_num
  · have ht := hTau h i
    rcases hT : P.Tau h i with _ | t
    · simp [init_params, hT, le_tau]
    · rw [hT] at ht
      simp only [tau_nn] at ht
      simp only [init_params, hT, le_tau]
      refine ⟨le_min (by linarith) (by norm_num), ?_⟩
      exact le_trans (min_le_left _ _) (by linarith)
  · show (0 : ℚ) ≤ 0; norm_num

lemma feas_xi_step (P : Inputs n d L H K) (st : St n d L H K) (k : Fin K)
    (hF : Feas P st) : Feas P (xi_step P st k) := by
  obtain ⟨h1, h2, h3, h4⟩ := hF
  refine ⟨fun k2 => ?_, fun l i => h2 l i, fun h i => h3 h i, fun h i => h4 h i⟩
  show 0 ≤ Function.update st.xi k (st.xi k + xi_eps P st k) k2
  by_cases hk : k2 = k
  · subst hk
    rw [Function.update_same]
    have hge : -(st.xi k2) ≤ xi_eps P st k2 := le_max_right _ _
    linarith
  · rw [Function.update_noteq hk]
    exact h1 k2

lemma lambda_eps_lower (P : Inputs n d L H K) (st : St n d L H K)
    (l : Fin L) (i : Fin n) : -(st.Lambda l i) ≤ lambda_eps P st l i :=
  le_max_right _ _

lemma lambda_eps_upper (P : Inputs n d L H K) (st : St n d L H K)
    (l : Fin L) (i : Fin n) : lambda_eps P st l i ≤ 1 - st.Lambda l i :=
  max_le (min_le_right _ _) (by linarith)

lemma feas_lambda_step (P : Inputs n d L H K) (st : St n d L H K)
    (l : Fin L) (i : Fin n) (hF : Feas P st) : Feas P (lambda_step P st l i) := by
  obtain ⟨h1, h2, h3, h4⟩ := hF
  refine ⟨fun k => h1 k, fun l2 i2 => ?_, fun h i2 => h3 h i2, fun h i2 => h4 h i2⟩
  show 0 ≤ upd2 st.Lambda l i (st.Lambda l i + lambda_eps P st l i) l2 i2 ∧
    upd2 st.Lambda l i (st.Lambda l i + lambda_eps P st l i) l2 i2 ≤ 1
  by_cases hli : l2 = l ∧ i2 = i
  · obtain ⟨rfl, rfl⟩ := hli
    simp only [upd2, and_self, if_true]
    have hlo := lambda_eps_lower P st l2 i2
    have hhi := lambda_eps_upper P st l2 i2
    constructor <;> linarith
  · simp only [upd2, hli, if_false]
    exact h2 l2 i2

lemma gamma_eps_lower (P : Inputs n d L H K) (st : St n d L H K)
    (h : Fin H) (i : Fin n) : -(st.Gamma h i) ≤ gamma_eps P st h i :=
  le_max_right _ _

/-- With a nonnegative (finite) bound `tau`, the clipped `Gamma` step never
exceeds `tau - gamma_old`. -/
lemma gamma_eps_upper (P : Inputs n d L H K) (st : St n d L H K)
    (h : Fin H) (i : Fin n) (t : ℚ) (hT : P.Tau h i = some t) (ht : 0 ≤ t) :
    gamma_eps P st h i ≤ t - st.Gamma h i := by
  have hrw : gamma_eps P st h i =
      max (min ((P.T h i + st.Omega h i +
          P.S h i * dot (P.X i) st.beta - st.Gamma h i)
        / (P.S h i * P.S h i * precompute_r P i + 1)) (t - st.Gamma h i))
        (-(st.Gamma h i)) := by
    simp [gamma_eps, hT]
  rw [hrw]
  exact max_le (min_le_right _ _) (by linarith)

lemma feas_gamma_step (P : Inputs n d L H K) (st : St n d L H K)
    (h : Fin H) (i : Fin n) (hTau : ∀ h2 i2, tau_nn (P.Tau h2 i2))
    (hF : Feas P st) : Feas P (gamma_step P st h i) := by
  obtain ⟨h1, h2, h3, h4⟩ := hF
  refine ⟨fun k => h1 k, fun l i2 => h2 l i2, fun h2 i2 => ?_, fun h2 i2 => ?_⟩
  · show 0 ≤ upd2 st.Gamma h i (st.Gamma h i + gamma_eps P st h i) h2 i2 ∧
      le_tau (upd2 st.Gamma h i (st.Gamma h i + gamma_eps P st h i) h2 i2)
        (P.Tau h2 i2)
    by_cases hhi : h2 = h ∧ i2 = i
    · obtain ⟨rfl, rfl⟩ := hhi
      simp only [upd2, and_self, if_true]
      have hlo := gamma_eps_lower P st h2 i2
      refine ⟨by linarith, ?_⟩
      have ht2 := hTau h2 i2
      rcases hT : P.Tau h2 i2 with _ | t
      · simp [le_tau]
      · rw [hT] at ht2
        simp only [tau_nn] at ht2
        have hup := gamma_eps_upper P st h2 i2 t hT ht2
        simp only [le_tau]
        linarith
    · simp only [upd2, hhi, if_false]
      exact h3 h2 i2
  · show 0 ≤ upd2 st.Omega h i _ h2 i2
    by_cases hhi : h2 = h ∧ i2 = i
    · obtain ⟨rfl, rfl⟩ := hhi
      simp only [upd2, and_self, if_true]
      rcases hT : P.Tau h2 i2 with _ | t
      · simp
      · simp only []
        exact le_max_left _ _
    · simp only [upd2, hhi, if_false]
      exact h4 h2 i2

/-! ## The complementary slack `Omega` is written as exactly `0` -/

/-- Each `Gamma/Omega` coordinate step writes `0` into `Omega(h,i)`,
for any state, provided `Tau(h,i)` is nonnegative or `+infinity`. -/
lemma gamma_step_omega_entry (P : Inputs n d L H K) (st : St n d L H K)
    (h : Fin H) (i : Fin n) (hTau_hi : tau_nn (P.Tau h i)) :
    (gamma_step P st h i).Omega h i = 0 := by
  show upd2 st.Omega h i _ h i = 0
  simp only [upd2, and_self, if_true]
  rcases hT : P.Tau h i with _ | t
  · rfl
  · rw [hT] at hTau_hi
    simp only [tau_nn] at hTau_hi
    have hup := gamma_eps_upper P st h i t hT hTau_hi
    simp only []
    rw [max_eq_left (by linarith)]

lemma omega_zero_gamma_step (P : Inputs n d L H K) (st : St n d L H K)
    (h : Fin H) (i : Fin n) (hTau : ∀ h2 i2, tau_nn (P.Tau h2 i2))
    (hΩ : OmegaZero st) : OmegaZero (gamma_step P st h i) := by
  intro h2 i2
  by_cases hhi : h2 = h ∧ i2 = i
  · obtain ⟨rfl, rfl⟩ := hhi
    exact gamma_step_omega_entry P st h2 i2 (hTau h2 i2)
  · show upd2 st.Omega h i _ h2 i2 = 0
    simp only [upd2, hhi, if_false]
    exact hΩ h2 i2

/-! ## Generic preservation through folds and the main loop -/

lemma foldl_pres {σ α : Type} (Q : σ → Prop) (f : σ → α → σ)
    (hf : ∀ s a, Q s → Q (f s a)) (l : List α) :
    ∀ s, Q s → Q (l.foldl f s) := by
  induction l with
  | nil => intro s hs; exact hs
  | cons a t ih => intro s hs; exact ih (f s a) (hf s a hs)

lemma foldl_pres_mono {σ α : Type} (Q : σ → Prop) (c : σ → ℚ) (f : σ → α → σ)
    (hf : ∀ s a, Q s → Q (f s a) ∧ c (f s a) ≤ c s) (l : List α) :
    ∀ s, Q s → Q (l.foldl f s) ∧ c (l.foldl f s) ≤ c s := by
  induction l with
  | nil => intro s hs; exact ⟨hs, le_refl _⟩
  | cons a t ih =>
      intro s hs
      obtain ⟨hq, hc⟩ := hf s a hs
      obtain ⟨hq2, hc2⟩ := ih (f s a) hq
      exact ⟨hq2, hc2.trans hc⟩

lemma sweep_pres (P : Inputs n d L H K) (Q : St n d L H K → Prop)
    (hxi : ∀ s k, Q s → Q (xi_step P s k))
    (hlam : ∀ s l i, Q s → Q (lambda_step P s l i))
    (hgam : ∀ s h i, Q s → Q (gamma_step P s h i))
    (st : St n d L H K) (hst : Q st) : Q (sweep P st) := by
  unfold sweep update_xi_beta update_Lambda_beta update_Gamma_Omega_beta
  apply foldl_pres Q _ (fun s h hs =>
    foldl_pres Q _ (fun s2 i hs2 => hgam s2 h i hs2) _ s hs)
  apply foldl_pres Q _ (fun s l hs =>
    foldl_pres Q _ (fun s2 i hs2 => hlam s2 l i hs2) _ s hs)
  exact foldl_pres Q _ (fun s k hs => hxi s k hs) _ st hst

/-! ## Structure of the dual objective -/

/-- `A^T * xi`, the first reconstructed contribution. -/
def Atxi (P : Inputs n d L H K) (st : St n d L H K) : Fin d → ℚ :=
  fun j => ∑ k, P.A k j * st.xi k

/-- `X^T * colSums(U .* Lambda)`, the second reconstructed contribution. -/
def U3L (P : Inputs n d L H K) (st : St n d L H K) : Fin d → ℚ :=
  fun j => ∑ i, P.X i j * ∑ l, P.U l i * st.Lambda l i

/-- `X^T * colSums(S .* Gamma)`, the third reconstructed contribution. -/
def S3G (P : Inputs n d L H K) (st : St n d L H K) : Fin d → ℚ :=
  fun j => ∑ i, P.X i j * ∑ h, P.S h i * st.Gamma h i

lemma dual_objfn_def (P : Inputs n d L H K) (st : St n d L H K) :
    dual_objfn P st =
      (0.5 * dot (Atxi P st) (Atxi P st) - dot (Atxi P st) (U3L P st)
          - dot (Atxi P st) (S3G P st) + dot st.xi P.b)
        + (0.5 * dot (U3L P st) (U3L P st) + dot (U3L P st) (S3G P st)
            - ∑ l, ∑ i, st.Lambda l i * P.V l i)
        + (0.5 * (∑ h, ∑ i, st.Omega h i ^ 2)
            + 0.5 * dot (S3G P st) (S3G P st)
            + 0.5 * (∑ h, ∑ i, st.Gamma h i ^ 2)
            - ∑ h, ∑ i, st.Gamma h i * (st.Omega h i + P.T h i)
            + ∑ h, ∑ i, st.Omega h i * tau_clip (P.Tau h i)) := rfl

lemma get_primal_eq (P : Inputs n d L H K) (st : St n d L H K) :
    get_primal P st.xi st.Lambda st.Gamma =
      fun j => Atxi P st j - (U3L P st j + S3G P st j) := by
  funext j
  simp only [get_primal, Atxi, U3L, S3G]
  rw [← Finset.sum_add_distrib]
  congr 1
  exact Finset.sum_congr rfl fun i _ => by ring

lemma sq_get_primal (P : Inputs n d L H K) (st : St n d L H K) :
    dot (get_primal P st.xi st.Lambda st.Gamma)
        (get_primal P st.xi st.Lambda st.Gamma) =
      dot (Atxi P st) (Atxi P st) - 2 * dot (Atxi P st) (U3L P st)
        - 2 * dot (Atxi P st) (S3G P st) + dot (U3L P st) (U3L P st)
        + 2 * dot (U3L P st) (S3G P st) + dot (S3G P st) (S3G P st) := by
  rw [get_primal_eq]
  simp only [dot]
  calc ∑ j, (Atxi P st j - (U3L P st j + S3G P st j)) *
        (Atxi P st j - (U3L P st j + S3G P st j))
      = ∑ j, (Atxi P st j * Atxi P st j - 2 * (Atxi P st j * U3L P st j)
          - 2 * (Atxi P st j * S3G P st j) + U3L P st j * U3L P st j
          + 2 * (U3L P st j * S3G P st j) + S3G P st j * S3G P st j) :=
        Finset.sum_congr rfl fun j _ => by ring
    _ = _ := by
        simp only [Finset.sum_add_distrib, Finset.sum_sub_distrib,
          ← Finset.mul_sum]

/-- The part of the dual objective that survives when `Omega = 0`,
written through the closed-form primal:
`0.5*||beta(dual)||^2 + xi.b - tr(Lambda V^T) + 0.5*||Gamma||^2 - tr(Gamma T^T)`,
as a function of the dual blocks. -/
def objRedF (P : Inputs n d L H K) (xi : Fin K → ℚ)
    (Lambda : Fin L → Fin n → ℚ) (Gamma : Fin H → Fin n → ℚ) : ℚ :=
  0.5 * dot (get_primal P xi Lambda Gamma) (get_primal P xi Lambda Gamma)
    + dot xi P.b - (∑ l, ∑ i, Lambda l i * P.V l i)
    + 0.5 * (∑ h, ∑ i, Gamma h i ^ 2) - ∑ h, ∑ i, Gamma h i * P.T h i

/-- The reduced dual objective of a state. -/
def objRed (P : Inputs n d L H K) (st : St n d L H K) : ℚ :=
  objRedF P st.xi st.Lambda st.Gamma

/-- On states with `Omega = 0` the coded dual objective coincides with the
reduced form. -/
lemma dual_objfn_eq_objRed (P : Inputs n d L H K) (st : St n d L H K)
    (hΩ : OmegaZero st) : dual_objfn P st = objRed P st := by
  rw [dual_objfn_def]
  unfold objRed objRedF
  rw [sq_get_primal]
  have h1 : (∑ h, ∑ i, st.Omega h i ^ 2) = 0 :=
    Finset.sum_eq_zero fun h _ => Finset.sum_eq_zero fun i _ => by
      rw [hΩ h i]; norm_num
  have h2 : (∑ h, ∑ i, st.Gamma h i * (st.Omega h i + P.T h i)) =
      ∑ h, ∑ i, st.Gamma h i * P.T h i :=
    Finset.sum_congr rfl fun h _ => Finset.sum_congr rfl fun i _ => by
      rw [hΩ h i]; ring
  have h3 : (∑ h, ∑ i, st.Omega h i * tau_clip (P.Tau h i)) = 0 :=
    Finset.sum_eq_zero fun h _ => Finset.sum_eq_zero fun i _ => by
      rw [hΩ h i]; ring
  rw [h1, h2, h3]
  ring

/-! ## The clipped coordinate-descent inequality -/

/-- A clipped move `e` lying between `0` and the unconstrained minimizer `q`
of the convex quadratic `0.5*a*e^2 - a*q*e` does not increase it above its
value `0` at `e = 0`. -/
lemma cd_quad_nonpos (a q e : ℚ) (ha : 0 ≤ a)
    (hbe : (0 ≤ e ∧ e ≤ q) ∨ (q ≤ e ∧ e ≤ 0)) :
    0.5 * a * e ^ 2 - a * q * e ≤ 0 := by
  rcases hbe with ⟨h1, h2⟩ | ⟨h1, h2⟩
  · have t1 : 0 ≤ a * e * (2 * q - e) :=
      mul_nonneg (mul_nonneg ha h1) (by linarith)
    nlinarith [t1]
  · have t1 : 0 ≤ a * (-e) * (e - 2 * q) :=
      mul_nonneg (mul_nonneg ha (by linarith)) (by linarith)
    nlinarith [t1]

/-- Descent of the coordinate quadratic under the `xi`-style clipping
`e = max(num/a, lo)` with `lo ≤ 0`. -/
lemma cd_descent_noupper (a num lo : ℚ) (ha : 0 ≤ a) (hlo : lo ≤ 0) :
    0.5 * a * max (num / a) lo ^ 2 - num * max (num / a) lo ≤ 0 := by
  rcases lt_or_eq_of_le ha with hpos | heq
  · set q := num / a with hq
    have hnum : num = a * q := by
      rw [hq]; field_simp
    rw [hnum]
    apply cd_quad_nonpos a q (max q lo) ha
    rcases le_or_lt 0 q with h | h
    · left
      rw [max_eq_left (hlo.trans h)]
      exact ⟨h, le_refl q⟩
    · right
      exact ⟨le_max_left _ _, max_le h.le hlo⟩
  · rw [← heq, div_zero, max_eq_left hlo]
    norm_num

/-- Descent of the coordinate quadratic under the `Lambda`/`Gamma`-style
clipping `e = max(min(num/a, hi), lo)` with `lo ≤ 0 ≤ hi`. -/
lemma cd_descent (a num lo hi : ℚ) (ha : 0 ≤ a) (hlo : lo ≤ 0)
    (hhi : 0 ≤ hi) :
    0.5 * a * max (min (num / a) hi) lo ^ 2
      - num * max (min (num / a) hi) lo ≤ 0 := by
  rcases lt_or_eq_of_le ha with hpos | heq
  · set q := num / a with hq
    have hnum : num = a * q := by
      rw [hq]; field_simp
    rw [hnum]
    apply cd_quad_nonpos a q (max (min q hi) lo) ha
    rcases le_or_lt 0 q with h | h
    · left
      have h0e : 0 ≤ min q hi := le_min h hhi
      rw [max_eq_left (hlo.trans h0e)]
      exact ⟨h0e, min_le_left _ _⟩
    · right
      rw [min_eq_left (h.le.trans hhi)]
      exact ⟨le_max_left _ _, max_le h.le hlo⟩
  · rw [← heq, div_zero, min_eq_left hhi, max_eq_left hlo]
    norm_num

/-! ## Rank-one update identities for dot products and double sums -/

lemma dot_comm {m : ℕ} (x y : Fin m → ℚ) : dot x y = dot y x :=
  Finset.sum_congr rfl fun _ _ => mul_comm _ _

lemma dot_update_left {m : ℕ} (f : Fin m → ℚ) (k : Fin m) (v : ℚ)
    (g : Fin m → ℚ) :
    dot (Function.update f k v) g = dot f g + (v - f k) * g k := by
  simp only [dot]
  exact sum_update_mul f k v g

lemma dot_A_self (P : Inputs n d L H K) (k : Fin K) :
    dot (P.A k) (P.A k) = precompute_p P k := by
  simp only [dot, precompute_p]
  exact Finset.sum_congr rfl fun _ _ => (pow_two _).symm

lemma dot_X_self (P : Inputs n d L H K) (i : Fin n) :
    dot (P.X i) (P.X i) = precompute_r P i := by
  simp only [dot, precompute_r]
  exact Finset.sum_congr rfl fun _ _ => (pow_two _).symm

lemma precompute_r_nonneg (P : Inputs n d L H K) (i : Fin n) :
    0 ≤ precompute_r P i :=
  Finset.sum_nonneg fun j _ => sq_nonneg _

lemma precompute_p_nonneg (P : Inputs n d L H K) (k : Fin K) :
    0 ≤ precompute_p P k :=
  Finset.sum_nonneg fun j _ => sq_nonneg _

lemma dot_rank1_add {m : ℕ} (x y : Fin m → ℚ) (e : ℚ) :
    dot (fun j => x j + e * y j) (fun j => x j + e * y j) =
      dot x x + 2 * e * dot x y + e ^ 2 * dot y y := by
  simp only [dot]
  calc ∑ j, (x j + e * y j) * (x j + e * y j)
      = ∑ j, (x j * x j + 2 * e * (x j * y j) + e ^ 2 * (y j * y j)) :=
        Finset.sum_congr rfl fun j _ => by ring
    _ = _ := by simp only [Finset.sum_add_distrib, ← Finset.mul_sum]

lemma dot_rank1_sub {m : ℕ} (x y : Fin m → ℚ) (e : ℚ) :
    dot (fun j => x j - e * y j) (fun j => x j - e * y j) =
      dot x x - 2 * e * dot x y + e ^ 2 * dot y y := by
  simp only [dot]
  calc ∑ j, (x j - e * y j) * (x j - e * y j)
      = ∑ j, (x j * x j - 2 * e * (x j * y j) + e ^ 2 * (y j * y j)) :=
        Finset.sum_congr rfl fun j _ => by ring
    _ = _ := by simp only [Finset.sum_add_distrib, Finset.sum_sub_distrib,
        ← Finset.mul_sum]

lemma sum2_ite_pair {a c : ℕ} (x : Fin a) (y : Fin c) (w : ℚ) :
    (∑ p, ∑ q, if p = x ∧ q = y then w else 0) = w := by
  have hrow : ∀ p, (∑ q, if p = x ∧ q = y then w else 0) =
      if p = x then w else 0 := by
    intro p
    by_cases hp : p = x
    · subst hp; simp [Finset.sum_ite_eq']
    · simp [hp]
  rw [Finset.sum_congr rfl fun p _ => hrow p,
    Finset.sum_ite_eq' Finset.univ x fun _ => w]
  simp

lemma sum2_upd2_mul {a c : ℕ} (M : Fin a → Fin c → ℚ) (x : Fin a) (y : Fin c)
    (v : ℚ) (W : Fin a → Fin c → ℚ) :
    ∑ p, ∑ q, upd2 M x y v p q * W p q =
      (∑ p, ∑ q, M p q * W p q) + (v - M x y) * W x y := by
  have hpt : ∀ p q, upd2 M x y v p q * W p q = M p q * W p q +
      (if p = x ∧ q = y then (v - M x y) * W x y else 0) := by
    intro p q
    by_cases hpq : p = x ∧ q = y
    · obtain ⟨rfl, rfl⟩ := hpq
      simp only [upd2, and_self, if_true]
      ring
    · simp [upd2, hpq]
  calc ∑ p, ∑ q, upd2 M x y v p q * W p q
      = ∑ p, ∑ q, (M p q * W p q +
          (if p = x ∧ q = y then (v - M x y) * W x y else 0)) :=
        Finset.sum_congr rfl fun p _ => Finset.sum_congr rfl fun q _ => hpt p q
    _ = (∑ p, ∑ q, M p q * W p q) +
          ∑ p, ∑ q, (if p = x ∧ q = y then (v - M x y) * W x y else 0) := by
        simp only [Finset.sum_add_distrib]
    _ = _ := by rw [sum2_ite_pair]

lemma sum2_upd2_sq {a c : ℕ} (M : Fin a → Fin c → ℚ) (x : Fin a) (y : Fin c)
    (v : ℚ) :
    ∑ p, ∑ q, upd2 M x y v p q ^ 2 =
      (∑ p, ∑ q, M p q ^ 2) + (v ^ 2 - M x y ^ 2) := by
  have hpt : ∀ p q, upd2 M x y v p q ^ 2 = M p q ^ 2 +
      (if p = x ∧ q = y then v ^ 2 - M x y ^ 2 else 0) := by
    intro p q
    by_cases hpq : p = x ∧ q = y
    · obtain ⟨rfl, rfl⟩ := hpq
      simp only [upd2, and_self, if_true]
      ring
    · simp [upd2, hpq]
  calc ∑ p, ∑ q, upd2 M x y v p q ^ 2
      = ∑ p, ∑ q, (M p q ^ 2 +
          (if p = x ∧ q = y then v ^ 2 - M x y ^ 2 else 0)) :=
        Finset.sum_congr rfl fun p _ => Finset.sum_congr rfl fun q _ => hpt p q
    _ = (∑ p, ∑ q, M p q ^ 2) +
          ∑ p, ∑ q, (if p = x ∧ q = y then v ^ 2 - M x y ^ 2 else 0) := by
        simp only [Finset.sum_add_distrib]
    _ = _ := by rw [sum2_ite_pair]

/-! ## Effect of one coordinate update on the reduced dual objective -/

lemma objRedF_update_xi (P : Inputs n d L H K) (xi : Fin K → ℚ)
    (Lambda : Fin L → Fin n → ℚ) (Gamma : Fin H → Fin n → ℚ)
    (k : Fin K) (v : ℚ) :
    objRedF P (Function.update xi k v) Lambda Gamma = objRedF P xi Lambda Gamma
      + (0.5 * precompute_p P k * (v - xi k) ^ 2
        + (v - xi k) * (dot (P.A k) (get_primal P xi Lambda Gamma) + P.b k)) := by
  unfold objRedF
  rw [get_primal_update_xi,
    dot_rank1_add (get_primal P xi Lambda Gamma) (P.A k) (v - xi k),
    dot_update_left xi k v P.b, dot_A_self,
    dot_comm (get_primal P xi Lambda Gamma) (P.A k)]
  ring

lemma objRedF_upd2_Lambda (P : Inputs n d L H K) (xi : Fin K → ℚ)
    (Lambda : Fin L → Fin n → ℚ) (Gamma : Fin H → Fin n → ℚ)
    (l : Fin L) (i : Fin n) (v : ℚ) :
    objRedF P xi (upd2 Lambda l i v) Gamma = objRedF P xi Lambda Gamma
      + (0.5 * (precompute_r P i * (P.U l i * P.U l i)) * (v - Lambda l i) ^ 2
        - (v - Lambda l i) *
            (P.V l i + P.U l i * dot (P.X i) (get_primal P xi Lambda Gamma))) := by
  unfold objRedF
  rw [get_primal_upd2_Lambda,
    dot_rank1_sub (get_primal P xi Lambda Gamma) (P.X i) ((v - Lambda l i) * P.U l i),
    sum2_upd2_mul Lambda l i v P.V, dot_X_self,
    dot_comm (get_primal P xi Lambda Gamma) (P.X i)]
  ring

lemma objRedF_upd2_Gamma (P : Inputs n d L H K) (xi : Fin K → ℚ)
    (Lambda : Fin L → Fin n → ℚ) (Gamma : Fin H → Fin n → ℚ)
    (h : Fin H) (i : Fin n) (v : ℚ) :
    objRedF P xi Lambda (upd2 Gamma h i v) = objRedF P xi Lambda Gamma
      + (0.5 * (P.S h i * P.S h i * precompute_r P i + 1) * (v - Gamma h i) ^ 2
        - (v - Gamma h i) *
            (P.T h i + P.S h i * dot (P.X i) (get_primal P xi Lambda Gamma)
              - Gamma h i)) := by
  unfold objRedF
  rw [get_primal_upd2_Gamma,
    dot_rank1_sub (get_primal P xi Lambda Gamma) (P.X i) ((v - Gamma h i) * P.S h i),
    sum2_upd2_sq Gamma h i v, sum2_upd2_mul Gamma h i v P.T, dot_X_self,
    dot_comm (get_primal P xi Lambda Gamma) (P.X i)]
  ring

lemma objRed_xi_step_le (P : Inputs n d L H K) (st : St n d L H K) (k : Fin K)
    (hC : Consistent P st) (hx : 0 ≤ st.xi k) :
    objRed P (xi_step P st k) ≤ objRed P st := by
  have h0 : objRed P (xi_step P st k) =
      objRedF P (Function.update st.xi k (st.xi k + xi_eps P st k))
        st.Lambda st.Gamma := rfl
  rw [h0, objRedF_update_xi]
  have hgp : get_primal P st.xi st.Lambda st.Gamma = st.beta := hC.symm
  rw [hgp]
  have hsimp : st.xi k + xi_eps P st k - st.xi k = xi_eps P st k := by ring
  rw [hsimp]
  have key := cd_descent_noupper (precompute_p P k)
    (-(dot (P.A k) st.beta + P.b k)) (-(st.xi k))
    (precompute_p_nonneg P k) (neg_nonpos.mpr hx)
  have hee : xi_eps P st k =
      max (-(dot (P.A k) st.beta + P.b k) / precompute_p P k) (-(st.xi k)) := rfl
  rw [hee]
  have hob : objRed P st = objRedF P st.xi st.Lambda st.Gamma := rfl
  rw [hob]
  linarith [key]

lemma objRed_lambda_step_le (P : Inputs n d L H K) (st : St n d L H K)
    (l : Fin L) (i : Fin n) (hC : Consistent P st)
    (hl0 : 0 ≤ st.Lambda l i) (hl1 : st.Lambda l i ≤ 1) :
    objRed P (lambda_step P st l i) ≤ objRed P st := by
  have h0 : objRed P (lambda_step P st l i) =
      objRedF P st.xi
        (upd2 st.Lambda l i (st.Lambda l i + lambda_eps P st l i)) st.Gamma := rfl
  rw [h0, objRedF_upd2_Lambda]
  have hgp : get_primal P st.xi st.Lambda st.Gamma = st.beta := hC.symm
  rw [hgp]
  have hsimp : st.Lambda l i + lambda_eps P st l i - st.Lambda l i =
      lambda_eps P st l i := by ring
  rw [hsimp]
  have ha : 0 ≤ precompute_r P i * (P.U l i * P.U l i) :=
    mul_nonneg (precompute_r_nonneg P i) (mul_self_nonneg _)
  have key := cd_descent (precompute_r P i * (P.U l i * P.U l i))
    (P.V l i + P.U l i * dot (P.X i) st.beta) (-(st.Lambda l i))
    (1 - st.Lambda l i) ha (neg_nonpos.mpr hl0) (by linarith)
  have hee : lambda_eps P st l i =
      max (min ((P.V l i + P.U l i * dot (P.X i) st.beta) /
          (precompute_r P i * (P.U l i * P.U l i))) (1 - st.Lambda l i))
        (-(st.Lambda l i)) := by
    simp only [lambda_eps]
    rw [div_div, div_div]
  rw [hee]
  have hob : objRed P st = objRedF P st.xi st.Lambda st.Gamma := rfl
  rw [hob]
  linarith [key]

lemma objRed_gamma_step_le (P : Inputs n d L H K) (st : St n d L H K)
    (h : Fin H) (i : Fin n) (hC : Consistent P st) (hO : st.Omega h i = 0)
    (hg0 : 0 ≤ st.Gamma h i) (hgt : le_tau (st.Gamma h i) (P.Tau h i)) :
    objRed P (gamma_step P st h i) ≤ objRed P st := by
  have h0 : objRed P (gamma_step P st h i) =
      objRedF P st.xi st.Lambda
        (upd2 st.Gamma h i (st.Gamma h i + gamma_eps P st h i)) := rfl
  rw [h0, objRedF_upd2_Gamma]
  have hgp : get_primal P st.xi st.Lambda st.Gamma = st.beta := hC.symm
  rw [hgp]
  have hsimp : st.Gamma h i + gamma_eps P st h i - st.Gamma h i =
      gamma_eps P st h i := by ring
  rw [hsimp]
  have ha : 0 ≤ P.S h i * P.S h i * precompute_r P i + 1 := by
    have h1 := precompute_r_nonneg P i
    have h2 := mul_self_nonneg (P.S h i)
    nlinarith
  have hob : objRed P st = objRedF P st.xi st.Lambda st.Gamma := rfl
  rw [hob]
  rcases hT : P.Tau h i with _ | t
  · have hee : gamma_eps P st h i =
        max ((P.T h i + P.S h i * dot (P.X i) st.beta - st.Gamma h i) /
            (P.S h i * P.S h i * precompute_r P i + 1)) (-(st.Gamma h i)) := by
      simp [gamma_eps, hT, hO]
    have key := cd_descent_noupper (P.S h i * P.S h i * precompute_r P i + 1)
      (P.T h i + P.S h i * dot (P.X i) st.beta - st.Gamma h i)
      (-(st.Gamma h i)) ha (neg_nonpos.mpr hg0)
    rw [hee]
    linarith [key]
  · rw [hT] at hgt
    simp only [le_tau] at hgt
    have hee : gamma_eps P st h i =
        max (min ((P.T h i + P.S h i * dot (P.X i) st.beta - st.Gamma h i) /
            (P.S h i * P.S h i * precompute_r P i + 1)) (t - st.Gamma h i))
          (-(st.Gamma h i)) := by
      simp [gamma_eps, hT, hO]
    have key := cd_descent (P.S h i * P.S h i * precompute_r P i + 1)
      (P.T h i + P.S h i * dot (P.X i) st.beta - st.Gamma h i)
      (-(st.Gamma h i)) (t - st.Gamma h i) ha (neg_nonpos.mpr hg0)
      (by linarith)
    rw [hee]
    linarith [key]

/-! ## The full solver invariant and sweep-level descent -/

/-- The running invariant of the solve: primal consistency, box
feasibility, and an identically-zero `Omega`. -/
def Inv (P : Inputs n d L H K) (st : St n d L H K) : Prop :=
  Consistent P st ∧ Feas P st ∧ OmegaZero st

lemma inv_mono_xi_step (P : Inputs n d L H K) (st : St n d L H K) (k : Fin K)
    (hI : Inv P st) :
    Inv P (xi_step P st k) ∧ objRed P (xi_step P st k) ≤ objRed P st := by
  obtain ⟨hC, hF, hW⟩ := hI
  exact ⟨⟨consistent_xi_step P st k hC, feas_xi_step P st k hF, hW⟩,
    objRed_xi_step_le P st k hC (hF.1 k)⟩

lemma inv_mono_lambda_step (P : Inputs n d L H K) (st : St n d L H K)
    (l : Fin L) (i : Fin n) (hI : Inv P st) :
    Inv P (lambda_step P st l i) ∧
      objRed P (lambda_step P st l i) ≤ objRed P st := by
  obtain ⟨hC, hF, hW⟩ := hI
  exact ⟨⟨consistent_lambda_step P st l i hC, feas_lambda_step P st l i hF, hW⟩,
    objRed_lambda_step_le P st l i hC (hF.2.1 l i).1 (hF.2.1 l i).2⟩

lemma inv_mono_gamma_step (P : Inputs n d L H K) (st : St n d L H K)
    (h : Fin H) (i : Fin n) (hTau : ∀ h2 i2, tau_nn (P.Tau h2 i2))
    (hI : Inv P st) :
    Inv P (gamma_step P st h i) ∧
      objRed P (gamma_step P st h i) ≤ objRed P st := by
  obtain ⟨hC, hF, hW⟩ := hI
  exact ⟨⟨consistent_gamma_step P st h i hC, feas_gamma_step P st h i hTau hF,
      omega_zero_gamma_step P st h i hTau hW⟩,
    objRed_gamma_step_le P st h i hC (hW h i) (hF.2.2.1 h i).1 (hF.2.2.1 h i).2⟩

lemma inv_init (P : Inputs n d L H K) (hTau : ∀ h i, tau_nn (P.Tau h i)) :
    Inv P (init_params P) :=
  ⟨consistent_init P, feas_init P hTau, fun _ _ => rfl⟩

lemma sweep_inv_mono (P : Inputs n d L H K)
    (hTau : ∀ h i, tau_nn (P.Tau h i)) (st : St n d L H K) (hI : Inv P st) :
    Inv P (sweep P st) ∧ objRed P (sweep P st) ≤ objRed P st := by
  unfold sweep update_xi_beta update_Lambda_beta update_Gamma_Omega_beta
  have h1 := foldl_pres_mono (Inv P) (objRed P) (fun s k => xi_step P s k)
    (fun s k hs => inv_mono_xi_step P s k hs) (List.finRange K) st hI
  have h2 := foldl_pres_mono (Inv P) (objRed P)
    (fun s l => (List.finRange n).foldl (fun s2 i => lambda_step P s2 l i) s)
    (fun s l hs => foldl_pres_mono (Inv P) (objRed P)
      (fun s2 i => lambda_step P s2 l i)
      (fun s2 i hs2 => inv_mono_lambda_step P s2 l i hs2) (List.finRange n) s hs)
    (List.finRange L) _ h1.1
  have h3 := foldl_pres_mono (Inv P) (objRed P)
    (fun s h => (List.finRange n).foldl (fun s2 i => gamma_step P s2 h i) s)
    (fun s h hs => foldl_pres_mono (Inv P) (objRed P)
      (fun s2 i => gamma_step P s2 h i)
      (fun s2 i hs2 => inv_mono_gamma_step P s2 h i hTau hs2)
      (List.finRange n) s hs)
    (List.finRange H) _ h2.1
  exact ⟨h3.1, h3.2.trans (h2.2.trans h1.2)⟩

/-! ## Unfolding helpers for the main loop -/

/-- The convergence test performed at the end of a loop iteration that
starts from state `st`: squared diffs of `xi` (`0` when `K = 0`) and of
`beta` across the sweep, each compared against `tol`. -/
def conv_test (P : Inputs n d L H K) (tol : ℚ) (st : St n d L H K) : Bool :=
  normSqLt (if 0 < K then ∑ k, ((sweep P st).xi k - st.xi k) ^ 2 else 0) tol &&
    normSqLt (∑ j, ((sweep P st).beta j - st.beta j) ^ 2) tol

/-- The verbose-mode push of the dual objective value
(`verbose && i % 10 == 0`). -/
def push_objs (P : Inputs n d L H K) (vb : Bool) (i : ℕ) (st : St n d L H K)
    (objs : List ℚ) : List ℚ :=
  if vb && (i % 10 == 0) then objs ++ [dual_objfn P (sweep P st)] else objs

lemma l3iterate_succ (P : Inputs n d L H K) (tol : ℚ) (vb : Bool)
    (f i : ℕ) (st : St n d L H K) (objs : List ℚ) :
    l3iterate P tol vb (f + 1) i st objs =
      if conv_test P tol st then (sweep P st, i, push_objs P vb i st objs)
      else l3iterate P tol vb f (i + 1) (sweep P st) (push_objs P vb i st objs) :=
  rfl

lemma push_objs_cases (P : Inputs n d L H K) (vb : Bool) (i : ℕ)
    (st : St n d L H K) (objs : List ℚ) :
    push_objs P vb i st objs = objs ∨
      push_objs P vb i st objs = objs ++ [dual_objfn P (sweep P st)] := by
  unfold push_objs
  by_cases hp : (vb && (i % 10 == 0)) = true
  · rw [if_pos hp]; right; rfl
  · rw [if_neg hp]; left; rfl

/-- Sampled dual objectives are antitone along the main loop. -/
lemma l3iterate_pairwise_aux (P : Inputs n d L H K) (tol : ℚ) (vb : Bool)
    (hTau : ∀ h i, tau_nn (P.Tau h i)) :
    ∀ fuel i st objs, Inv P st →
      List.Pairwise (fun a b2 => b2 ≤ a) objs →
      (∀ x ∈ objs, objRed P st ≤ x) →
      List.Pairwise (fun a b2 => b2 ≤ a) (l3iterate P tol vb fuel i st objs).2.2 := by
  intro fuel
  induction fuel with
  | zero => intro i st objs _ hpw _; exact hpw
  | succ f ih =>
      intro i st objs hI hpw hle
      obtain ⟨hI2, hmono⟩ := sweep_inv_mono P hTau st hI
      have hobj2 : dual_objfn P (sweep P st) = objRed P (sweep P st) :=
        dual_objfn_eq_objRed P _ hI2.2.2
      have hfacts : List.Pairwise (fun a b2 => b2 ≤ a) (push_objs P vb i st objs) ∧
          ∀ x ∈ push_objs P vb i st objs, objRed P (sweep P st) ≤ x := by
        rcases push_objs_cases P vb i st objs with hcase | hcase <;> rw [hcase]
        · exact ⟨hpw, fun x hx => hmono.trans (hle x hx)⟩
        · constructor
          · rw [List.pairwise_append]
            refine ⟨hpw, List.pairwise_singleton _ _, ?_⟩
            intro a ha b2 hb2
            rw [List.mem_singleton] at hb2
            subst hb2
            rw [hobj2]
            exact hmono.trans (hle a ha)
          · intro x hx
            rw [List.mem_append, List.mem_singleton] at hx
            rcases hx with hx | rfl
            · exact hmono.trans (hle x hx)
            · rw [hobj2]
      rw [l3iterate_succ]
      by_cases hc : conv_test P tol st = true
      · rw [if_pos hc]
        exact hfacts.1
      · rw [if_neg hc]
        exact ih (i + 1) (sweep P st) (push_objs P vb i st objs) hI2
          hfacts.1 hfacts.2

lemma l3iterate_state_pres (P : Inputs n d L H K) (tol : ℚ) (vb : Bool)
    (Q : St n d L H K → Prop) (hQ : ∀ s, Q s → Q (sweep P s)) :
    ∀ fuel i st objs, Q st → Q (l3iterate P tol vb fuel i st objs).1 := by
  intro fuel
  induction fuel with
  | zero => intro i st objs hst; exact hst
  | succ f ih =>
      intro i st objs hst
      simp only [l3iterate]
      split
      · split
        · exact hQ st hst
        · exact ih (i + 1) (sweep P st) _ (hQ st hst)
      · split
        · exact hQ st hst
        · exact ih (i + 1) (sweep P st) _ (hQ st hst)

/-! ## Full characterization of the iteration driver -/

/-- Complete description of the main loop: either no iteration among the
`fuel` available ones passes the convergence test — then the loop counter
advances by exactly `fuel` and the final state is `fuel` sweeps from the
start — or the loop stops at the first iteration `m` whose test passes,
with `m + 1` sweeps performed. -/
lemma l3iterate_spec (P : Inputs n d L H K) (tol : ℚ) (vb : Bool) :
    ∀ fuel i st objs,
      ((l3iterate P tol vb fuel i st objs).2.1 = i + fuel ∧
        (∀ m, m < fuel → conv_test P tol ((sweep P)^[m] st) = false) ∧
        (l3iterate P tol vb fuel i st objs).1 = (sweep P)^[fuel] st) ∨
      (∃ m, m < fuel ∧
        (l3iterate P tol vb fuel i st objs).2.1 = i + m ∧
        conv_test P tol ((sweep P)^[m] st) = true ∧
        (∀ m2, m2 < m → conv_test P tol ((sweep P)^[m2] st) = false) ∧
        (l3iterate P tol vb fuel i st objs).1 = (sweep P)^[m + 1] st) := by
  intro fuel
  induction fuel with
  | zero =>
      intro i st objs
      left
      exact ⟨by simp [l3iterate], fun m hm => absurd hm (Nat.not_lt_zero m), rfl⟩
  | succ f ih =>
      intro i st objs
      rw [l3iterate_succ]
      by_cases hc : conv_test P tol st = true
      · rw [if_pos hc]
        right
        refine ⟨0, Nat.succ_pos f, by simp, ?_, ?_, ?_⟩
        · simpa using hc
        · intro m2 hm2; exact absurd hm2 (Nat.not_lt_zero m2)
        · simp
      · rw [if_neg hc]
        have hcf : conv_test P tol st = false := by
          simpa using hc
        rcases ih (i + 1) (sweep P st) (push_objs P vb i st objs) with
          ⟨h1, h2, h3⟩ | ⟨m, hm, h1, h2, h3, h4⟩
        · left
          refine ⟨by rw [h1]; omega, ?_, ?_⟩
          · intro m hm
            cases m with
            | zero => simpa using hcf
            | succ m2 =>
                rw [Function.iterate_succ_apply]
                exact h2 m2 (by omega)
          · rw [h3, ← Function.iterate_succ_apply]
        · right
          refine ⟨m + 1, by omega, by rw [h1]; omega, ?_, ?_, ?_⟩
          · rw [Function.iterate_succ_apply]; exact h2
          · intro m2 hm2
            cases m2 with
            | zero => simpa using hcf
            | succ m3 =>
                rw [Function.iterate_succ_apply]
                exact h3 m3 (by omega)
          · rw [h4, ← Function.iterate_succ_apply]

/-- The returned `L3Result` carries the components of a state. -/
def agrees (R : L3Result n d L H K) (st : St n d L H K) : Prop :=
  R.beta = st.beta ∧ R.xi = st.xi ∧ R.Lambda = st.Lambda ∧
    R.Gamma = st.Gamma ∧ R.Omega = st.Omega

lemma agrees_result (P : Inputs n d L H K) (max_iter : ℕ) (tol : ℚ) (vb : Bool)
    (s2 : St n d L H K)
    (hz : (l3iterate P tol vb max_iter 0 (init_params P) []).1 = s2) :
    agrees (l3solver_internal P max_iter tol vb) s2 := by
  unfold agrees l3solver_internal
  rw [← hz]
  exact ⟨rfl, rfl, rfl, rfl, rfl⟩

/-! ## Claim theorems -/

/-- C1.  Under the claimed preconditions (nonnegative `Tau`, nonzero `U`
entries, strictly positive squared row norms of `X` and `A`), the
incrementally maintained `beta` equals the closed-form reconstruction
`get_primal` of the current dual state after initialization and after every
single coordinate update of any of the three update rules (exact equality
in exact arithmetic). -/
theorem C1_primal_consistency (P : Inputs n d L H K)
    (_hTau : ∀ h i, tau_nn (P.Tau h i)) (_hU : ∀ l i, P.U l i ≠ 0)
    (_hr : ∀ i, 0 < precompute_r P i) (_hp : ∀ k2, 0 < precompute_p P k2) :
    Consistent P (init_params P) ∧
    (∀ st k2, Consistent P st → Consistent P (xi_step P st k2)) ∧
    (∀ st l i, Consistent P st → Consistent P (lambda_step P st l i)) ∧
    (∀ st h i, Consistent P st → Consistent P (gamma_step P st h i)) :=
  ⟨consistent_init P,
   fun st k2 => consistent_xi_step P st k2,
   fun st l i => consistent_lambda_step P st l i,
   fun st h i => consistent_gamma_step P st h i⟩

/-- C2.  With all `Tau` entries nonnegative (or `+infinity`), box
feasibility — `xi ≥ 0`, `Lambda ∈ [0,1]`, `Gamma ∈ [0, Tau]`, `Omega ≥ 0` —
holds after initialization and is preserved by every single coordinate
update of each of the three rules (exact clamping). -/
theorem C2_box_feasibility (P : Inputs n d L H K)
    (hTau : ∀ h i, tau_nn (P.Tau h i)) :
    Feas P (init_params P) ∧
    (∀ st k2, Feas P st → Feas P (xi_step P st k2)) ∧
    (∀ st l i, Feas P st → Feas P (lambda_step P st l i)) ∧
    (∀ st h i, Feas P st → Feas P (gamma_step P st h i)) :=
  ⟨feas_init P hTau,
   fun st k2 => feas_xi_step P st k2,
   fun st l i => feas_lambda_step P st l i,
   fun st h i hF => feas_gamma_step P st h i hTau hF⟩

/-- C3.  The driver performs at most `max_iter` sweeps (each sweep is
`update_xi_beta`, `update_Lambda_beta`, `update_Gamma_Omega_beta` in that
fixed order, by definition of `sweep`, followed by the diff test
`conv_test`, whose `xi` part is `0` when `K = 0`).  It stops at the first
sweep whose `xi_diff < tol` and `beta_diff < tol`, reporting that sweep
index as `niter`; if no sweep meets the tolerance it performs exactly
`max_iter` sweeps, reports `niter = max_iter`, and still returns the
current dual and primal state — the function is total, no error path
exists. -/
theorem C3_driver (P : Inputs n d L H K) (max_iter : ℕ) (tol : ℚ) (vb : Bool) :
    (l3solver_internal P max_iter tol vb).niter ≤ max_iter ∧
    (∀ j, j < (l3solver_internal P max_iter tol vb).niter →
      conv_test P tol ((sweep P)^[j] (init_params P)) = false) ∧
    ((l3solver_internal P max_iter tol vb).niter < max_iter →
      conv_test P tol
          ((sweep P)^[(l3solver_internal P max_iter tol vb).niter]
            (init_params P)) = true ∧
      agrees (l3solver_internal P max_iter tol vb)
        ((sweep P)^[(l3solver_internal P max_iter tol vb).niter + 1]
          (init_params P))) ∧
    ((l3solver_internal P max_iter tol vb).niter = max_iter →
      agrees (l3solver_internal P max_iter tol vb)
        ((sweep P)^[max_iter] (init_params P))) := by
  have hni : (l3solver_internal P max_iter tol vb).niter =
      (l3iterate P tol vb max_iter 0 (init_params P) []).2.1 := rfl
  rcases l3iterate_spec P tol vb max_iter 0 (init_params P) [] with
    ⟨h1, h2, h3⟩ | ⟨m, hm, h1, h2, h3, h4⟩
  · rw [hni, h1]
    simp only [Nat.zero_add]
    refine ⟨le_refl _, fun j hj => h2 j hj, fun hlt => absurd hlt (lt_irrefl _),
      fun _ => agrees_result P max_iter tol vb _ h3⟩
  · rw [hni, h1]
    simp only [Nat.zero_add]
    refine ⟨hm.le, fun j hj => h3 j hj, fun _ => ⟨h2, ?_⟩, fun heq => ?_⟩
    · exact agrees_result P max_iter tol vb _ h4
    · omega

/-- C4.  The initializer sets `xi = 1`, `Lambda = 0.5`,
`Gamma = min(0.5*Tau, 1)` elementwise — equal to `1` when `Tau = +infinity`
(no `0 * inf` is formed: the `+infinity` branch is resolved exactly) —
`Omega = 0`, and `beta` to the closed-form reconstruction `get_primal` of
these initial dual values. -/
theorem C4_init (P : Inputs n d L H K) :
    ((init_params P).xi = fun _ => 1) ∧
    ((init_params P).Lambda = fun _ _ => 0.5) ∧
    (∀ h i, P.Tau h i = none → (init_params P).Gamma h i = 1) ∧
    (∀ h i t, P.Tau h i = some t → (init_params P).Gamma h i = min (0.5 * t) 1) ∧
    ((init_params P).Omega = fun _ _ => 0) ∧
    ((init_params P).beta =
      get_primal P (init_params P).xi (init_params P).Lambda
        (init_params P).Gamma) := by
  refine ⟨rfl, rfl, ?_, ?_, rfl, rfl⟩
  · intro h i hT
    simp [init_params, hT]
  · intro h i t hT
    simp [init_params, hT]

/-- C5 (amended).  One `Gamma/Omega` coordinate step applies
`Gamma(h,i) += eps` (with `eps = gamma_eps`, the clipped step) and
`beta -= eps * S(h,i) * X_row_i`, and then recomputes the slack from the
PRE-update value of `Gamma(h,i)`:
`Omega(h,i) = max(0, Gamma_old(h,i) + eps - Tau(h,i))`
(equivalently `max(0, Gamma_new(h,i) - Tau(h,i))`); when `Tau(h,i)` is
`+infinity` the recomputation always yields `0`. -/
theorem C5_gamma_omega_step (P : Inputs n d L H K) (st : St n d L H K)
    (h : Fin H) (i : Fin n) :
    ((gamma_step P st h i).Gamma h i = st.Gamma h i + gamma_eps P st h i) ∧
    ((gamma_step P st h i).beta =
      fun j => st.beta j - gamma_eps P st h i * P.S h i * P.X i j) ∧
    (∀ t, P.Tau h i = some t →
      (gamma_step P st h i).Omega h i =
        max 0 (st.Gamma h i + gamma_eps P st h i - t)) ∧
    (P.Tau h i = none → (gamma_step P st h i).Omega h i = 0) := by
  refine ⟨?_, rfl, ?_, ?_⟩
  · show upd2 st.Gamma h i (st.Gamma h i + gamma_eps P st h i) h i = _
    simp [upd2]
  · intro t hT
    show upd2 st.Omega h i _ h i = _
    simp [upd2, hT]
  · intro hT
    show upd2 st.Omega h i _ h i = 0
    simp [upd2, hT]

/-- C6 (amended).  For every input with nonnegative (possibly infinite)
`Tau` entries, the sequence of dual objective values sampled at the verbose
cadence is non-INcreasing across the sampled iterations (the coded value
`dual_objfn` is the negated dual, which the coordinate updates minimize;
equality holds when nothing changes across a sweep). -/
theorem C6_monotone_dual (P : Inputs n d L H K)
    (hTau : ∀ h i, tau_nn (P.Tau h i)) (max_iter : ℕ) (tol : ℚ) (vb : Bool) :
    List.Pairwise (fun a b2 => b2 ≤ a)
      (l3solver_internal P max_iter tol vb).dual_objfns :=
  l3iterate_pairwise_aux P tol vb hTau max_iter 0 (init_params P) []
    (inv_init P hTau) List.Pairwise.nil
    (fun x hx => absurd hx (List.not_mem_nil x))

/-- C7.  With all `Tau` entries nonnegative (finite or `+infinity`): the
clipped step never exceeds `Tau - Gamma_old`, every `Gamma/Omega`
coordinate step writes exactly `0` into `Omega(h,i)` (for any state), and
consequently — with the zero initialization — the solver always returns an
all-zero `Omega` matrix. -/
theorem C7_omega_identically_zero (P : Inputs n d L H K)
    (hTau : ∀ h i, tau_nn (P.Tau h i)) (max_iter : ℕ) (tol : ℚ) (vb : Bool) :
    (∀ st h i t, P.Tau h i = some t →
      gamma_eps P st h i ≤ t - st.Gamma h i) ∧
    (∀ st h i, (gamma_step P st h i).Omega h i = 0) ∧
    ((l3solver_internal P max_iter tol vb).Omega = fun _ _ => 0) := by
  refine ⟨?_, ?_, ?_⟩
  · intro st h i t hT
    have ht := hTau h i
    rw [hT] at ht
    simp only [tau_nn] at ht
    exact gamma_eps_upper P st h i t hT ht
  · intro st h i
    exact gamma_step_omega_entry P st h i (hTau h i)
  · have hpres := l3iterate_state_pres P tol vb OmegaZero
      (fun s hs => sweep_pres P OmegaZero
        (fun s2 k hs2 => hs2) (fun s2 l i hs2 => hs2)
        (fun s2 h i hs2 => omega_zero_gamma_step P s2 h i hTau hs2) s hs)
      max_iter 0 (init_params P) [] (fun _ _ => rfl)
    funext h i
    exact hpres h i

/-- C10.  Under the claimed preconditions — every entry of `U` nonzero,
every squared row norm `r[i]` of `X` strictly positive, every squared row
norm `p[k]` of `A` strictly positive — each divisor used by the three
coordinate update rules (`p[k]`; `r[i]` and `U(l,i)` twice, jointly
`r[i]*U(l,i)^2`; `S(h,i)^2*r[i] + 1`) is nonzero, so no update divides by
zero. -/
theorem C10_nonzero_divisors (P : Inputs n d L H K)
    (hU : ∀ l i, P.U l i ≠ 0) (hr : ∀ i, 0 < precompute_r P i)
    (hp : ∀ k2, 0 < precompute_p P k2) :
    (∀ k2, precompute_p P k2 ≠ 0) ∧
    (∀ l i, precompute_r P i * (P.U l i * P.U l i) ≠ 0) ∧
    (∀ h i, P.S h i * P.S h i * precompute_r P i + 1 ≠ 0) := by
  refine ⟨fun k2 => ne_of_gt (hp k2), fun l i => ?_, fun h i => ?_⟩
  · exact mul_ne_zero (ne_of_gt (hr i)) (mul_ne_zero (hU l i) (hU l i))
  · have h1 := precompute_r_nonneg P i
    have h2 := mul_self_nonneg (P.S h i)
    have h3 : 0 < P.S h i * P.S h i * precompute_r P i + 1 := by nlinarith
    exact ne_of_gt h3

/-! ## Concrete instances, counterexamples and witnesses -/

instance : (t : Option ℚ) → Decidable (tau_nn t) := fun t =>
  match t with
  | none => isTrue True.intro
  | some t0 => inferInstanceAs (Decidable (0 ≤ t0))

instance (g : ℚ) : (t : Option ℚ) → Decidable (le_tau g t) := fun t =>
  match t with
  | none => isTrue True.intro
  | some t0 => inferInstanceAs (Decidable (g ≤ t0))

section Concrete

attribute [local semireducible] Rat.add Rat.mul Rat.inv Rat.sub Rat.ofScientific

/-- A 1×1 instance with all three constraint families present. -/
def P1 : Inputs 1 1 1 1 1 :=
  ⟨![![1]], ![![1]], ![0], ![![1]], ![![0]], ![![1]], ![![0]], ![![some 1]]⟩

/-- A 1×1 instance with only the `Gamma/Omega` family, `Tau = 1`, `T = 5`:
its first coordinate step is clipped at the upper bound (`eps = 1/2`). -/
def P5 : Inputs 1 1 0 1 0 :=
  ⟨![![1]], ![], ![], ![], ![], ![![1]], ![![5]], ![![some 1]]⟩

/-- Two overlapping `A`-constraints: Gauss-Seidel converges only linearly,
so the sampled dual objective strictly decreases between samples. -/
def P6 : Inputs 2 2 0 0 2 :=
  ⟨![![1, 0], ![0, 1]], ![![1, 0], ![1, 1]], ![-1, -1], ![], ![], ![], ![], ![]⟩

/-- The scenario of C9: `X = I_2`, `A = [[1, 0]]`, `b = [-1]`, `L = H = 0`. -/
def P9 : Inputs 2 2 0 0 1 :=
  ⟨![![1, 0], ![0, 1]], ![![1, 0]], ![-1], ![], ![], ![], ![], ![]⟩

/-- An instance with one finite and one infinite `Tau` entry. -/
def PW4 : Inputs 1 1 0 2 0 :=
  ⟨![![1]], ![], ![], ![], ![], ![![1], ![1]], ![![0], ![0]],
    ![![some 4], ![none]]⟩

/-- C5, counterexample.  Reading the claimed recomputation formula
`Omega(h,i) = max(0, Gamma(h,i) + eps - Tau(h,i))` with the post-update
`Gamma(h,i)` (the value in force after the just-performed
`Gamma(h,i) += eps`, as the claim sequences it) contradicts the code: on
`P5` the code stores `0` while the formula gives `1/2`. -/
theorem C5_counterexample :
    ¬ ((gamma_step P5 (init_params P5) 0 0).Omega 0 0 =
      max 0 ((gamma_step P5 (init_params P5) 0 0).Gamma 0 0 +
        gamma_eps P5 (init_params P5) 0 0 - 1)) := by decide

/-- C6, counterexample.  On `P6` with `max_iter = 11`, `tol = 0`,
`verbose = true`, the two sampled dual objective values (iterations 0 and
10) strictly decrease, so the sampled sequence is NOT non-decreasing. -/
theorem C6_counterexample :
    ¬ List.Pairwise (fun a b2 => a ≤ b2)
      (l3solver_internal P6 11 0 true).dual_objfns := by decide

/-- C9.  On `X = I_2`, `A = [[1,0]]`, `b = [-1]` (`K = 1`, `L = H = 0`),
for any `tol > 0` and `max_iter ≥ 1`: the very first sweep already passes
the diff test (`xi_diff = beta_diff = 0 < tol`), so the solve converges
with `niter = 0 < max_iter`, the returned `beta` is `[1, 0]`, and the
returned `xi` is the (finite) nonnegative value `1`. -/
theorem C9_scenario (max_iter : ℕ) (tol : ℚ) (hmi : 1 ≤ max_iter)
    (ht : 0 < tol) :
    (l3solver_internal P9 max_iter tol false).niter = 0 ∧
    (l3solver_internal P9 max_iter tol false).niter < max_iter ∧
    conv_test P9 tol (init_params P9) = true ∧
    (l3solver_internal P9 max_iter tol false).beta = ![1, 0] ∧
    (l3solver_internal P9 max_iter tol false).xi = ![1] ∧
    0 ≤ (l3solver_internal P9 max_iter tol false).xi 0 := by
  obtain ⟨f, rfl⟩ : ∃ f, max_iter = f + 1 := ⟨max_iter - 1, by omega⟩
  have hsweep : sweep P9 (init_params P9) = init_params P9 := by decide
  have hconv : conv_test P9 tol (init_params P9) = true := by
    unfold conv_test
    rw [hsweep]
    simp [normSqLt, sub_self, ht.le, pow_pos ht]
  have hrun : l3iterate P9 tol false (f + 1) 0 (init_params P9) [] =
      (init_params P9, 0, []) := by
    rw [l3iterate_succ, if_pos hconv, hsweep]
    simp [push_objs]
  have hb : l3solver_internal P9 (f + 1) tol false =
      ⟨(init_params P9).beta, (init_params P9).xi, (init_params P9).Lambda,
        (init_params P9).Gamma, (init_params P9).Omega, 0, []⟩ := by
    simp only [l3solver_internal]
    rw [hrun]
  rw [hb]
  exact ⟨rfl, by show 0 < f + 1; omega, hconv, by decide, by decide, by decide⟩

/-- C1, witness at the concrete instance `P1`. -/
theorem C1_witness :
    Consistent P1 (init_params P1) ∧
    Consistent P1 (xi_step P1 (init_params P1) 0) := by
  have h := C1_primal_consistency P1 (by decide) (by decide) (by decide)
    (by decide)
  exact ⟨h.1, h.2.1 (init_params P1) 0 h.1⟩

/-- C2, witness at the concrete instance `P1`. -/
theorem C2_witness :
    Feas P1 (init_params P1) ∧
    Feas P1 (lambda_step P1 (init_params P1) 0 0) := by
  have h := C2_box_feasibility P1 (by decide)
  exact ⟨h.1, h.2.2.1 (init_params P1) 0 0 h.1⟩

/-- C3, witness: on `P9` with `max_iter = 5`, `tol = 1`, the driver stops
early and returns the state after `niter + 1` sweeps. -/
theorem C3_witness :
    (l3solver_internal P9 5 1 false).niter < 5 ∧
    conv_test P9 1
      ((sweep P9)^[(l3solver_internal P9 5 1 false).niter]
        (init_params P9)) = true ∧
    agrees (l3solver_internal P9 5 1 false)
      ((sweep P9)^[(l3solver_internal P9 5 1 false).niter + 1]
        (init_params P9)) := by
  have hlt : (l3solver_internal P9 5 1 false).niter < 5 := by decide
  have h := (C3_driver P9 5 1 false).2.2.1 hlt
  exact ⟨hlt, h.1, h.2⟩

/-- C4, witness at `PW4` (one finite and one infinite `Tau` entry). -/
theorem C4_witness :
    (init_params PW4).Gamma 1 0 = 1 ∧
    (init_params PW4).Gamma 0 0 = min (0.5 * 4) 1 := by
  have h := C4_init PW4
  exact ⟨h.2.2.1 1 0 (by decide), h.2.2.2.1 0 0 4 (by decide)⟩

/-- C5 (amended), witness at `P5`. -/
theorem C5_witness :
    (gamma_step P5 (init_params P5) 0 0).Omega 0 0 =
      max 0 ((init_params P5).Gamma 0 0 + gamma_eps P5 (init_params P5) 0 0
        - 1) :=
  (C5_gamma_omega_step P5 (init_params P5) 0 0).2.2.1 1 (by decide)

/-- C6 (amended), witness at `P6`. -/
theorem C6_witness :
    List.Pairwise (fun a b2 => b2 ≤ a)
      (l3solver_internal P6 11 0 true).dual_objfns :=
  C6_monotone_dual P6 (by decide) 11 0 true

/-- C7, witness at `P5`. -/
theorem C7_witness :
    (l3solver_internal P5 3 1 false).Omega = fun _ _ => 0 :=
  (C7_omega_identically_zero P5 (by decide) 3 1 false).2.2

/-- C9, witness at `max_iter = 10`, `tol = 1/1000`. -/
theorem C9_witness :
    (1 : ℕ) ≤ 10 ∧ (0 : ℚ) < 1 / 1000 ∧
    (l3solver_internal P9 10 (1 / 1000) false).beta = ![1, 0] :=
  ⟨by norm_num, by norm_num,
    (C9_scenario 10 (1 / 1000) (by norm_num) (by norm_num)).2.2.2.1⟩

/-- C10, witness at `P1`. -/
theorem C10_witness :
    precompute_p P1 0 ≠ 0 ∧
    P1.S 0 0 * P1.S 0 0 * precompute_r P1 0 + 1 ≠ 0 := by
  have h := C10_nonzero_divisors P1 (by decide) (by decide) (by decide)
  exact ⟨h.1 0, h.2.2 0 0⟩

end Concrete

end L3
